import Mathlib

/-! OSRM node ↔ feature segment mapping (`routing/osrm2feature_map.hpp`)

A shallow embedding of the declarations of `routing/osrm2feature_map.hpp`.
Machine integers are natural numbers. The widths of the fields of a segment are
stated by a well-formedness predicate (`FtSeg.WF`) and the packed key is reduced
modulo `2 ^ 64`; sequence lengths, indices and offsets are unbounded.

The header defines `FtSeg::operator==`, `FtSeg::IsValid`, `FtSeg::INVALID_FID`,
`SegOffset`, `FtSegLess`, `OsrmFtSegMapping::ForEachFtSeg` and
`OsrmFtSegMapping::GetSegmentsCount` inline; these are embedded from the code.
Every other member function is only declared there; its body is modelled from
the specification and its doc comment says so.
-/

namespace routing

/-- The type `TOsrmNodeId` (`uint32_t`). -/
abbrev TOsrmNodeId := Nat

/-- The type `TNodesList` (`vector<TOsrmNodeId>`). -/
abbrev TNodesList := List TOsrmNodeId

namespace OsrmMappingTypes

/-- The value `numeric_limits<uint32_t>::max()`. -/
def UINT32_MAX : Nat := 2 ^ 32 - 1

/-- The struct `FtSeg`: `uint32_t m_fid; uint16_t m_pointStart; uint16_t m_pointEnd`. -/
structure FtSeg where
  m_fid : Nat
  m_pointStart : Nat
  m_pointEnd : Nat
deriving DecidableEq, Repr

namespace FtSeg

/-- The field widths of `FtSeg`: a 32-bit feature id and two 16-bit point indices. -/
def WF (s : FtSeg) : Prop :=
  s.m_fid < 2 ^ 32 ∧ s.m_pointStart < 2 ^ 16 ∧ s.m_pointEnd < 2 ^ 16

instance (s : FtSeg) : Decidable s.WF := by
  unfold WF
  infer_instance

/-- The constant `FtSeg::INVALID_FID = numeric_limits<uint32_t>::max()`. -/
def INVALID_FID : Nat := UINT32_MAX

/-- The operator `FtSeg::operator==`: all three fields are compared. -/
def eq (self other : FtSeg) : Bool :=
  (other.m_fid == self.m_fid)
    && (other.m_pointEnd == self.m_pointEnd)
    && (other.m_pointStart == self.m_pointStart)

/-- The method `FtSeg::IsValid`: `m_fid != INVALID_FID`. -/
def IsValid (self : FtSeg) : Bool :=
  self.m_fid != INVALID_FID

/-- The method `FtSeg::Swap`: the two segments exchange their three fields. -/
def Swap (self other : FtSeg) : FtSeg × FtSeg :=
  (⟨other.m_fid, other.m_pointStart, other.m_pointEnd⟩,
   ⟨self.m_fid, self.m_pointStart, self.m_pointEnd⟩)

/-- Modelled from the spec: the body of `FtSeg::Store` is missing (declared only).
The packed 64-bit key holds the feature id in the high-order 32 bits, the start
point index in the next 16 bits and the end point index in the low-order 16 bits. -/
def Store (self : FtSeg) : Nat :=
  (self.m_fid * 2 ^ 32 + self.m_pointStart * 2 ^ 16 + self.m_pointEnd) % 2 ^ 64

/-- Modelled from the spec: the body of the constructor `FtSeg::FtSeg(uint64_t x)` is
missing (declared only). It unpacks a key laid out as `Store` packs it. -/
def ofKey (x : Nat) : FtSeg :=
  ⟨x / 2 ^ 32 % 2 ^ 32, x / 2 ^ 16 % 2 ^ 16, x % 2 ^ 16⟩

/-- Modelled from the spec: the body of the constructor
`FtSeg::FtSeg(uint32_t fid, uint32_t ps, uint32_t pe)` is missing (declared only).
Construction fails when a point index exceeds the 16-bit range. The sentinel
feature id is accepted: a sentinel segment is a placeholder that can be stored, and
is rejected only where a segment is asserted valid. -/
def ctor (fid ps pe : Nat) : Option FtSeg :=
  if ps < 2 ^ 16 ∧ pe < 2 ^ 16 then some ⟨fid % 2 ^ 32, ps, pe⟩ else none

/-- The point ranges `[start, end)` of two segments overlap: some point index lies
in both. -/
def Overlapping (a b : FtSeg) : Prop :=
  max a.m_pointStart b.m_pointStart < min a.m_pointEnd b.m_pointEnd

/-- The point ranges `[start, end)` of two segments are adjacent: one ends where
the other starts. -/
def Adjacent (a b : FtSeg) : Prop :=
  a.m_pointEnd = b.m_pointStart ∨ b.m_pointEnd = a.m_pointStart

instance (a b : FtSeg) : Decidable (Overlapping a b) := by
  unfold Overlapping
  infer_instance

instance (a b : FtSeg) : Decidable (Adjacent a b) := by
  unfold Adjacent
  infer_instance

/-- Modelled from the spec: the body of `FtSeg::Merge` is missing (declared only).
The receiver absorbs `other` only if both have the same feature id and their
point ranges are adjacent or overlapping; the combined range is
`[min(start), max(end))`. The result is the returned flag and the receiver
after the call. -/
def Merge (self other : FtSeg) : Bool × FtSeg :=
  if other.m_fid = self.m_fid ∧ (Adjacent self other ∨ Overlapping self other) then
    (true, ⟨self.m_fid, min self.m_pointStart other.m_pointStart,
            max self.m_pointEnd other.m_pointEnd⟩)
  else
    (false, self)

/-- Lexicographic order on the triples `(m_fid, m_pointStart, m_pointEnd)`. -/
def LexLt (a b : FtSeg) : Prop :=
  a.m_fid < b.m_fid ∨
    (a.m_fid = b.m_fid ∧
      (a.m_pointStart < b.m_pointStart ∨
        (a.m_pointStart = b.m_pointStart ∧ a.m_pointEnd < b.m_pointEnd)))

end FtSeg

/-- The struct `SegOffset`: `TOsrmNodeId m_nodeId; uint32_t m_offset`. -/
structure SegOffset where
  m_nodeId : Nat
  m_offset : Nat
deriving DecidableEq, Repr

/-- The default constructor `SegOffset()`: both fields zero. -/
def SegOffset.init : SegOffset := ⟨0, 0⟩

/-- The comparator `FtSegLess::operator()`: `a->Store() < b->Store()`. -/
def FtSegLess (a b : FtSeg) : Bool :=
  decide (a.Store < b.Store)

end OsrmMappingTypes

open OsrmMappingTypes

/-! ## Forward mapping -/

/-- Modelled from the spec: the container types `FilesContainerW` and
`FilesMappingContainer` are missing. A forward mapping container has two named
sections: the sequence of packed segment keys (the compression is a third-party
encoding of that sequence) and the offset table. -/
structure FilesContainer where
  segments : List Nat
  offsets : List SegOffset
deriving DecidableEq, Repr

/-- The class `OsrmFtSegMapping`, restricted to the members the index uses:
the offset table `m_offsets` and the key sequence `m_segments`
(a `succinct::elias_fano_compressed_list`, a random-access sequence of 64-bit keys). -/
structure OsrmFtSegMapping where
  m_offsets : List SegOffset
  m_segments : List Nat
deriving DecidableEq, Repr

/-- What one run of `ForEachFtSeg` did: the number of loop iterations, the
indices at which `m_segments` was read, the segments `toDo` was invoked on (both in
order), and the state the visitor `toDo` left. -/
structure ForEachTrace (σ : Type) where
  iterations : Nat
  reads : List Nat
  calls : List FtSeg
  state : σ

/-- The condition under which `Load` fails. -/
inductive LoadError where
  | CorruptIndex
deriving DecidableEq, Repr

namespace OsrmFtSegMapping

/-- The method `OsrmFtSegMapping::GetSegmentsCount`: `m_segments.size()`. -/
def GetSegmentsCount (self : OsrmFtSegMapping) : Nat :=
  self.m_segments.length

/-- Binary search in the offset table: the first position in `[first, last)` whose
record has a node id not less than `nodeId` (the algorithm of `std::lower_bound`). -/
def lowerBound (offs : List SegOffset) (nodeId : Nat) (first last : Nat) : Nat :=
  if first < last then
    let mid := first + (last - first) / 2
    if (offs.getD mid SegOffset.init).m_nodeId < nodeId then
      lowerBound offs nodeId (mid + 1) last
    else
      lowerBound offs nodeId first mid
  else first
termination_by last - first
decreasing_by
  all_goals simp_wf
  all_goals omega

/-- Modelled from the spec: the body of `OsrmFtSegMapping::GetSegmentsRange` is missing
(declared only). The offset table is binary-searched for the record of `nodeId`; the
node's range starts at that record's offset and ends at the offset of the next
record, or at the end of the sequence for the last record. A node id without a
record gets an empty range (placed where its segments would be). -/
def GetSegmentsRange (self : OsrmFtSegMapping) (nodeId : Nat) : Nat × Nat :=
  let k := lowerBound self.m_offsets nodeId 0 self.m_offsets.length
  match self.m_offsets[k]? with
  | some o =>
    if o.m_nodeId = nodeId then
      match self.m_offsets[k + 1]? with
      | some next => (o.m_offset, next.m_offset)
      | none => (o.m_offset, self.m_segments.length)
    else (o.m_offset, o.m_offset)
  | none => (self.m_segments.length, self.m_segments.length)

/-- The loop of `ForEachFtSeg`: `while (r.first != r.second)`, read and unpack
`m_segments[r.first]`, call `toDo` on it if it is valid, `++r.first`.
A read past the end of the sequence is logged in `reads` like any other and yields
the key 0. With `r.first > r.second` the loop would leave the range and run on;
the result is then `none`. -/
def ForEachFtSeg.loop {σ : Type} (m_segments : List Nat) (toDo : FtSeg → σ → σ)
    (first second : Nat) (t : ForEachTrace σ) : Option (ForEachTrace σ) :=
  if first ≠ second then
    if first < second then
      let s := FtSeg.ofKey (m_segments.getD first 0)
      let t1 : ForEachTrace σ :=
        { t with iterations := t.iterations + 1, reads := t.reads ++ [first] }
      let t2 : ForEachTrace σ :=
        if s.IsValid then { t1 with calls := t1.calls ++ [s], state := toDo s t1.state }
        else t1
      ForEachFtSeg.loop m_segments toDo (first + 1) second t2
    else none
  else some t
termination_by second - first
decreasing_by
  simp_wf
  omega

/-- The method `OsrmFtSegMapping::ForEachFtSeg`: the loop over the range
`GetSegmentsRange(nodeId)`. The visitor `toDo` passes its state explicitly. -/
def ForEachFtSeg {σ : Type} (self : OsrmFtSegMapping) (nodeId : Nat)
    (toDo : FtSeg → σ → σ) (init : σ) : Option (ForEachTrace σ) :=
  let r := self.GetSegmentsRange nodeId
  ForEachFtSeg.loop self.m_segments toDo r.1 r.2 ⟨0, [], [], init⟩

/-- Consecutive records of an offset table have strictly increasing node ids and
strictly increasing start offsets. -/
def strictlyIncreasing : List SegOffset → Bool
  | [] => true
  | [_] => true
  | a :: b :: rest =>
    decide (a.m_nodeId < b.m_nodeId) && decide (a.m_offset < b.m_offset)
      && strictlyIncreasing (b :: rest)

/-- Modelled from the spec: the body of `OsrmFtSegMapping::Load` is missing (declared
only). Loading attaches to the two sections of the container and fails with
`CorruptIndex` if the offset table is not strictly increasing or has a start offset
beyond the length of the segment sequence. -/
def Load (cont : FilesContainer) : Except LoadError OsrmFtSegMapping :=
  if strictlyIncreasing cont.offsets
      ∧ ∀ o ∈ cont.offsets, o.m_offset ≤ cont.segments.length then
    .ok ⟨cont.offsets, cont.segments⟩
  else .error LoadError.CorruptIndex

end OsrmFtSegMapping

/-! ## Builder -/

/-- The class `OsrmFtSegMappingBuilder`: the inherited offset table `m_offsets`,
the key buffer `m_buffer` and the running offset `m_lastOffset`. -/
structure OsrmFtSegMappingBuilder where
  m_offsets : List SegOffset
  m_buffer : List Nat
  m_lastOffset : Nat
deriving DecidableEq, Repr

namespace OsrmFtSegMappingBuilder

/-- Modelled from the spec: the body of the constructor `OsrmFtSegMappingBuilder()` is
missing (declared only). A new builder is empty. -/
def ctor : OsrmFtSegMappingBuilder := ⟨[], [], 0⟩

/-- Modelled from the spec: the body of `OsrmFtSegMappingBuilder::Append` is missing
(declared only). The call fails (`none`) if `nodeId` is smaller than a node id
recorded before. Otherwise every segment is packed and appended to the buffer, and
one offset-table record is made for the first append that gives the node id a
segment: later appends for the same node id extend the same range. -/
def Append (self : OsrmFtSegMappingBuilder) (nodeId : Nat) (data : List FtSeg) :
    Option OsrmFtSegMappingBuilder :=
  match self.m_offsets.getLast? with
  | some last =>
    if nodeId < last.m_nodeId then none
    else
      some
        { m_offsets :=
            if data ≠ [] ∧ last.m_nodeId ≠ nodeId then
              self.m_offsets ++ [⟨nodeId, self.m_lastOffset⟩]
            else self.m_offsets
          m_buffer := self.m_buffer ++ data.map FtSeg.Store
          m_lastOffset := self.m_lastOffset + data.length }
  | none =>
    some
      { m_offsets :=
          if data ≠ [] then self.m_offsets ++ [⟨nodeId, self.m_lastOffset⟩]
          else self.m_offsets
        m_buffer := self.m_buffer ++ data.map FtSeg.Store
        m_lastOffset := self.m_lastOffset + data.length }

/-- Modelled from the spec: the body of `OsrmFtSegMappingBuilder::Save` is missing
(declared only). The key buffer and the offset table are written to the two sections
of the container. -/
def Save (self : OsrmFtSegMappingBuilder) : FilesContainer :=
  ⟨self.m_buffer, self.m_offsets⟩

/-- A sequence of `Append` calls on a builder, in order. -/
def AppendAll (self : OsrmFtSegMappingBuilder) :
    List (Nat × List FtSeg) → Option OsrmFtSegMappingBuilder
  | [] => some self
  | (nodeId, data) :: rest =>
    match self.Append nodeId data with
    | some b => b.AppendAll rest
    | none => none

end OsrmFtSegMappingBuilder

/-! ## Backward index -/

/-- The class `OsrmFtSegBackwardIndex`: the bit vector `m_rankIndex` (one bit per
feature id) and the node lists `m_nodeIds`, one per set bit. -/
structure OsrmFtSegBackwardIndex where
  m_rankIndex : List Bool
  m_nodeIds : List TNodesList
deriving DecidableEq, Repr

namespace OsrmFtSegBackwardIndex

/-- The state of `Construct` during its scan: the bit vector and, per feature id,
the node list accumulated so far. -/
structure Scan where
  bits : List Bool
  lists : List TNodesList
deriving DecidableEq, Repr

/-- A vector grown with `fill` until position `i` exists. -/
def grow {α : Type} (v : List α) (i : Nat) (fill : α) : List α :=
  v ++ List.replicate (i + 1 - v.length) fill

/-- One step of the scan of `Construct`: the bit of the segment's feature id is set
and `nodeId` joins the node list of that feature id unless it is already there. -/
def visit (nodeId : Nat) (s : FtSeg) (acc : Scan) : Scan :=
  let bits := grow acc.bits s.m_fid false
  let lists := grow acc.lists s.m_fid []
  let l := lists.getD s.m_fid []
  { bits := bits.set s.m_fid true
    lists := lists.set s.m_fid (if nodeId ∈ l then l else l ++ [nodeId]) }

/-- The scan of `Construct` over the node ids `nodeId, nodeId + 1, ...` (`count` of
them): the valid segments of each node are visited with `ForEachFtSeg`. -/
def scan (mapping : OsrmFtSegMapping) : (count : Nat) → (nodeId : Nat) → Scan → Option Scan
  | 0, _, acc => some acc
  | count + 1, nodeId, acc =>
    match mapping.ForEachFtSeg nodeId (visit nodeId) acc with
    | some t => scan mapping count (nodeId + 1) t.state
    | none => none

/-- The node lists of the set bits, by ascending bit position. -/
def dense : List Bool → List TNodesList → List TNodesList
  | true :: bits, l :: lists => l :: dense bits lists
  | false :: bits, _ :: lists => dense bits lists
  | _, _ => []

/-- Modelled from the spec: the body of `OsrmFtSegBackwardIndex::Construct` is missing
(declared only). For every node id from 0 to `maxNodeId` the valid forward segments
are visited; each sets the bit of its feature id and adds the node id to the node
list of that feature id, once per feature. The bit vector has one bit per feature
id up to the largest one seen; the node lists of the set bits are stored by
ascending rank. -/
def Construct (mapping : OsrmFtSegMapping) (maxNodeId : Nat) :
    Option OsrmFtSegBackwardIndex :=
  match scan mapping (maxNodeId + 1) 0 ⟨[], []⟩ with
  | some acc => some ⟨acc.bits, dense acc.bits acc.lists⟩
  | none => none

/-- The rank of a position: the number of set bits at positions `≤ fid`. -/
def rank (bits : List Bool) (fid : Nat) : Nat :=
  (bits.take (fid + 1)).count true

/-- Modelled from the spec: the body of `OsrmFtSegBackwardIndex::GetNodeIdByFid` is
missing (declared only). If the bit at position `fid` is unset (or beyond the bit
vector) the result is empty; otherwise it is the node list stored at the rank of
`fid` (ranks count from 1, the lists are stored from position 0). -/
def GetNodeIdByFid (self : OsrmFtSegBackwardIndex) (fid : Nat) : TNodesList :=
  if self.m_rankIndex.getD fid false then
    self.m_nodeIds.getD (rank self.m_rankIndex fid - 1) []
  else []

end OsrmFtSegBackwardIndex

/-! ## Reference lists used to state the claims -/

/-- The keys at the indices `s, s+1, ..., e-1` of a key sequence, unpacked. -/
def unpackedRange (m_segments : List Nat) (s e : Nat) : List FtSeg :=
  (List.range' s (e - s)).map (fun i => FtSeg.ofKey (m_segments.getD i 0))

/-- The valid segments among the unpacked keys at the indices `s, ..., e-1`, in
index order. -/
def validInRange (m_segments : List Nat) (s e : Nat) : List FtSeg :=
  (unpackedRange m_segments s e).filter FtSeg.IsValid

/-- The range of a node id read off the offset table by a scan from the front: the
reference against which the binary search of `GetSegmentsRange` is checked. -/
def rangeIn : List SegOffset → Nat → Nat → Nat × Nat
  | [], len, _ => (len, len)
  | o :: rest, len, nodeId =>
    if o.m_nodeId < nodeId then rangeIn rest len nodeId
    else if o.m_nodeId = nodeId then
      (o.m_offset, match rest with
        | [] => len
        | next :: _ => next.m_offset)
    else (o.m_offset, o.m_offset)

/-- The order of two consecutive records of an offset table: node id and start
offset both increase. -/
def OffsetLt (a b : SegOffset) : Prop :=
  a.m_nodeId < b.m_nodeId ∧ a.m_offset < b.m_offset

/-- The forward range of node `nodeId` holds a valid segment with feature id `fid`
(in a loaded mapping every range lies inside the key sequence). -/
def hasValidSegment (m : OsrmFtSegMapping) (nodeId fid : Nat) : Prop :=
  ∃ i : Nat, (m.GetSegmentsRange nodeId).1 ≤ i ∧ i < (m.GetSegmentsRange nodeId).2
    ∧ (FtSeg.ofKey (m.m_segments.getD i 0)).IsValid = true
    ∧ (FtSeg.ofKey (m.m_segments.getD i 0)).m_fid = fid

/-- The (node id, valid segment) pairs the scan of `Construct` visits over `count`
node ids from `nodeId` on, in order. -/
def scanEvents (m : OsrmFtSegMapping) : Nat → Nat → List (Nat × FtSeg)
  | 0, _ => []
  | count + 1, nodeId =>
    (validInRange m.m_segments (m.GetSegmentsRange nodeId).1
        (m.GetSegmentsRange nodeId).2).map (fun s => (nodeId, s))
      ++ scanEvents m count (nodeId + 1)

/-- The scan state after a list of (node id, segment) visits. -/
def visitAll (acc : OsrmFtSegBackwardIndex.Scan) (events : List (Nat × FtSeg)) :
    OsrmFtSegBackwardIndex.Scan :=
  events.foldl (fun st e => OsrmFtSegBackwardIndex.visit e.1 e.2 st) acc

/-- What a scan state must say about the visits made so far: the two vectors have
the same length, a bit is set exactly for the visited feature ids, the node list
of a feature id holds exactly the nodes visited with it, and no node twice. -/
def ScanInv (acc : OsrmFtSegBackwardIndex.Scan) (seen : List (Nat × FtSeg)) : Prop :=
  acc.bits.length = acc.lists.length
    ∧ (∀ f : Nat, acc.bits.getD f false = true ↔ ∃ e ∈ seen, e.2.m_fid = f)
    ∧ (∀ f n : Nat, n ∈ acc.lists.getD f [] ↔ ∃ e ∈ seen, e.1 = n ∧ e.2.m_fid = f)
    ∧ ∀ f : Nat, (acc.lists.getD f []).Nodup

/-! ## Scenarios of the specification -/

/-- The appends of scenarios A and B: node 1 gets (10,0,5), node 2 gets (10,5,8). -/
def scenarioAppends : List (Nat × List FtSeg) :=
  [(1, [⟨10, 0, 5⟩]), (2, [⟨10, 5, 8⟩])]

/-- The forward mapping of scenarios A and B, as `Save` and `Load` leave it. -/
def scenarioMapping : OsrmFtSegMapping :=
  ⟨[⟨1, 0⟩, ⟨2, 1⟩], [42949672965, 42950000648]⟩

/-- The forward mapping of scenario C: node 5 with one sentinel segment. -/
def sentinelMapping : OsrmFtSegMapping :=
  ⟨[⟨5, 0⟩], [18446744069414584321]⟩

/-! ## Codec facts -/

theorem FtSeg_Store_of_WF (s : FtSeg) (h : s.WF) :
    s.Store = s.m_fid * 2 ^ 32 + s.m_pointStart * 2 ^ 16 + s.m_pointEnd := by
  obtain ⟨h1, h2, h3⟩ := h
  unfold FtSeg.Store
  apply Nat.mod_eq_of_lt
  norm_num at h1 h2 h3 ⊢
  omega

theorem FtSeg_ofKey_Store (s : FtSeg) (h : s.WF) : FtSeg.ofKey s.Store = s := by
  rw [FtSeg_Store_of_WF s h]
  obtain ⟨h1, h2, h3⟩ := h
  cases s with
  | mk f p q =>
    simp only [FtSeg.ofKey, FtSeg.mk.injEq] at *
    norm_num at h1 h2 h3 ⊢
    omega

theorem FtSeg_ofKey_WF (x : Nat) : (FtSeg.ofKey x).WF := by
  simp only [FtSeg.WF, FtSeg.ofKey]
  refine ⟨Nat.mod_lt _ (by norm_num), Nat.mod_lt _ (by norm_num), Nat.mod_lt _ (by norm_num)⟩

theorem FtSeg_Store_ofKey (x : Nat) (h : x < 2 ^ 64) : (FtSeg.ofKey x).Store = x := by
  rw [FtSeg_Store_of_WF _ (FtSeg_ofKey_WF x)]
  simp only [FtSeg.ofKey]
  norm_num at h ⊢
  omega

theorem FtSeg_Store_lt_iff (a b : FtSeg) (ha : a.WF) (hb : b.WF) :
    a.Store < b.Store ↔ FtSeg.LexLt a b := by
  rw [FtSeg_Store_of_WF a ha, FtSeg_Store_of_WF b hb]
  obtain ⟨h1, h2, h3⟩ := ha
  obtain ⟨h4, h5, h6⟩ := hb
  unfold FtSeg.LexLt
  norm_num at h1 h2 h3 h4 h5 h6 ⊢
  omega

/-! ## Claims about the segment codec -/

/-- Claim C6: `IsValid` is false exactly for the feature id `INVALID_FID`, which is
4294967295 = 2^32 - 1, and the point indices play no role in validity. -/
theorem FtSeg_IsValid_iff_not_sentinel (s : FtSeg) :
    (s.IsValid = false ↔ s.m_fid = FtSeg.INVALID_FID)
      ∧ FtSeg.INVALID_FID = 4294967295
      ∧ FtSeg.INVALID_FID = 2 ^ 32 - 1
      ∧ (∀ ps pe : Nat, (FtSeg.mk s.m_fid ps pe).IsValid = s.IsValid) := by
  refine ⟨?_, ?_, ?_, ?_⟩
  · simp [FtSeg.IsValid]
  · decide
  · rfl
  · intro ps pe
    rfl

/-- Claim C5: comparing packed keys as integers (what `FtSegLess` computes) is the
lexicographic comparison of `(m_fid, m_pointStart, m_pointEnd)`: the feature id is
the high-order 32 bits of the key, the start index the next 16 bits and the end index
the low-order 16 bits. -/
theorem FtSegLess_iff_lex (a b : FtSeg) (ha : a.WF) (hb : b.WF) :
    (FtSegLess a b = true ↔ FtSeg.LexLt a b)
      ∧ (a.Store < b.Store ↔ FtSeg.LexLt a b)
      ∧ a.Store < 2 ^ 64
      ∧ a.Store / 2 ^ 32 = a.m_fid
      ∧ a.Store / 2 ^ 16 % 2 ^ 16 = a.m_pointStart
      ∧ a.Store % 2 ^ 16 = a.m_pointEnd := by
  have hlex := FtSeg_Store_lt_iff a b ha hb
  refine ⟨?_, hlex, ?_, ?_, ?_, ?_⟩
  · simp only [FtSegLess, decide_eq_true_eq]
    exact hlex
  · exact Nat.mod_lt _ (by norm_num)
  all_goals
    rw [FtSeg_Store_of_WF a ha]
    obtain ⟨h1, h2, h3⟩ := ha
    norm_num at h1 h2 h3 ⊢
    omega

/-- Instance of claim C5 at the segments (10,5,8) and (11,0,1). -/
theorem FtSegLess_iff_lex_witness :
    (FtSegLess ⟨10, 5, 8⟩ ⟨11, 0, 1⟩ = true ↔ FtSeg.LexLt ⟨10, 5, 8⟩ ⟨11, 0, 1⟩)
      ∧ FtSeg.LexLt ⟨10, 5, 8⟩ ⟨11, 0, 1⟩
      ∧ (FtSeg.mk 10 5 8).Store / 2 ^ 32 = 10 :=
  have h := FtSegLess_iff_lex ⟨10, 5, 8⟩ ⟨11, 0, 1⟩ (by decide) (by decide)
  ⟨h.1, Or.inl (by decide), h.2.2.2.1⟩

/-- Claim C8: for a 32-bit feature id and 16-bit point indices, unpacking the packed
key gives back the same segment under `operator==`; `Store` is injective on
segments; and for every 64-bit key `x`, packing the unpacked `x` gives `x`. -/
theorem FtSeg_codec_round_trip :
    (∀ fid ps pe : Nat, fid < 2 ^ 32 → ps < 2 ^ 16 → pe < 2 ^ 16 →
        ∃ s : FtSeg, FtSeg.ctor fid ps pe = some s ∧ s = ⟨fid, ps, pe⟩
          ∧ FtSeg.eq (FtSeg.ofKey s.Store) s = true)
      ∧ (∀ a b : FtSeg, a.WF → b.WF → a.Store = b.Store → a = b)
      ∧ (∀ x : Nat, x < 2 ^ 64 → (FtSeg.ofKey x).Store = x) := by
  refine ⟨?_, ?_, ?_⟩
  · intro fid ps pe hf hs he
    refine ⟨⟨fid, ps, pe⟩, ?_, rfl, ?_⟩
    · unfold FtSeg.ctor
      rw [if_pos ⟨hs, he⟩, Nat.mod_eq_of_lt hf]
    · rw [FtSeg_ofKey_Store _ ⟨hf, hs, he⟩]
      simp [FtSeg.eq]
  · intro a b ha hb hab
    rw [← FtSeg_ofKey_Store a ha, ← FtSeg_ofKey_Store b hb, hab]
  · intro x hx
    exact FtSeg_Store_ofKey x hx

/-- Instance of claim C8 at the segment (10,5,8) and at the key 42950000648. -/
theorem FtSeg_codec_round_trip_witness :
    (∃ s : FtSeg, FtSeg.ctor 10 5 8 = some s ∧ s = ⟨10, 5, 8⟩
        ∧ FtSeg.eq (FtSeg.ofKey s.Store) s = true)
      ∧ (FtSeg.ofKey 42950000648).Store = 42950000648 :=
  ⟨FtSeg_codec_round_trip.1 10 5 8 (by decide) (by decide) (by decide),
   FtSeg_codec_round_trip.2.2 42950000648 (by decide)⟩

/-- Claim C9: `FtSegLess` is a strict weak ordering: irreflexive, asymmetric,
transitive; two segments are incomparable exactly when their packed keys are equal,
so incomparability is an equivalence relation; segments equal under `operator==`
are incomparable. -/
theorem FtSegLess_strict_weak_order (a b c : FtSeg) :
    FtSegLess a a = false
      ∧ (FtSegLess a b = true → FtSegLess b a = false)
      ∧ (FtSegLess a b = true → FtSegLess b c = true → FtSegLess a c = true)
      ∧ ((FtSegLess a b = false ∧ FtSegLess b a = false) ↔ a.Store = b.Store)
      ∧ ((FtSegLess a b = false ∧ FtSegLess b a = false) →
          (FtSegLess b c = false ∧ FtSegLess c b = false) →
          (FtSegLess a c = false ∧ FtSegLess c a = false))
      ∧ ((FtSegLess a b = false ∧ FtSegLess b a = false) →
          (FtSegLess b a = false ∧ FtSegLess a b = false))
      ∧ (FtSeg.eq a b = true → FtSegLess a b = false ∧ FtSegLess b a = false) := by
  simp only [FtSegLess, decide_eq_true_eq, decide_eq_false_iff_not]
  refine ⟨by omega, by omega, by omega, by omega, by omega, by omega, ?_⟩
  intro h
  simp only [FtSeg.eq, Bool.and_eq_true, beq_iff_eq] at h
  obtain ⟨⟨h1, h2⟩, h3⟩ := h
  have hab : a = b := by
    cases a
    cases b
    simp only [FtSeg.mk.injEq]
    simp only at h1 h2 h3
    exact ⟨h1.symm, h3.symm, h2.symm⟩
  subst hab
  omega

/-- Instance of claim C9 (asymmetry) at the segments (10,0,5) and (10,5,8). -/
theorem FtSegLess_strict_weak_order_witness :
    FtSegLess ⟨10, 0, 5⟩ ⟨10, 5, 8⟩ = true ∧ FtSegLess ⟨10, 5, 8⟩ ⟨10, 0, 5⟩ = false :=
  have h : FtSegLess ⟨10, 0, 5⟩ ⟨10, 5, 8⟩ = true := by decide
  ⟨h, (FtSegLess_strict_weak_order ⟨10, 0, 5⟩ ⟨10, 5, 8⟩ ⟨10, 5, 8⟩).2.1 h⟩

/-- Claim C4: `Merge` succeeds exactly when both segments have the same feature id and
their point ranges are adjacent or overlapping; the merged segment keeps the
feature id and has the range `[min(start), max(end))`; a failed merge leaves the
receiver unchanged; merging (10,0,5) with (10,5,8) gives (10,0,8). For non-empty
ranges, adjacent or overlapping means that the two ranges together cover exactly
`[min(start), max(end))`. -/
theorem FtSeg_Merge_correct (a b : FtSeg) :
    ((a.Merge b).1 = true ↔
        a.m_fid = b.m_fid ∧ (FtSeg.Adjacent a b ∨ FtSeg.Overlapping a b))
      ∧ ((a.Merge b).1 = true →
          (a.Merge b).2.m_fid = a.m_fid ∧ (a.Merge b).2.m_fid = b.m_fid
            ∧ (a.Merge b).2.m_pointStart = min a.m_pointStart b.m_pointStart
            ∧ (a.Merge b).2.m_pointEnd = max a.m_pointEnd b.m_pointEnd)
      ∧ ((a.Merge b).1 = false → (a.Merge b).2 = a)
      ∧ (a.m_pointStart < a.m_pointEnd → b.m_pointStart < b.m_pointEnd →
          ((FtSeg.Adjacent a b ∨ FtSeg.Overlapping a b) ↔
            ∀ p : Nat,
              (min a.m_pointStart b.m_pointStart ≤ p ∧ p < max a.m_pointEnd b.m_pointEnd) ↔
                ((a.m_pointStart ≤ p ∧ p < a.m_pointEnd)
                  ∨ (b.m_pointStart ≤ p ∧ p < b.m_pointEnd))))
      ∧ FtSeg.Merge ⟨10, 0, 5⟩ ⟨10, 5, 8⟩ = (true, ⟨10, 0, 8⟩) := by
  refine ⟨?_, ?_, ?_, ?_, by decide⟩
  · unfold FtSeg.Merge
    split
    · rename_i h
      simp only [true_iff]
      exact ⟨h.1.symm, h.2⟩
    · rename_i h
      simp only [Bool.false_eq_true, false_iff]
      intro h2
      exact h ⟨h2.1.symm, h2.2⟩
  · unfold FtSeg.Merge
    split
    · rename_i h
      intro _
      exact ⟨rfl, h.1.symm, rfl, rfl⟩
    · intro h
      simp at h
  · unfold FtSeg.Merge
    split
    · intro h
      simp at h
    · intro _
      rfl
  · intro ha hb
    unfold FtSeg.Adjacent FtSeg.Overlapping
    constructor
    · intro h p
      omega
    · intro h
      have h1 := h (min a.m_pointEnd b.m_pointEnd)
      omega

/-- Instance of claim C4 at the segments (10,0,5) and (10,5,8). -/
theorem FtSeg_Merge_correct_witness :
    (FtSeg.Merge ⟨10, 0, 5⟩ ⟨10, 5, 8⟩).1 = true
      ∧ (FtSeg.Merge ⟨10, 0, 5⟩ ⟨10, 5, 8⟩).2.m_pointEnd = max 5 8 :=
  have h : (FtSeg.Merge ⟨10, 0, 5⟩ ⟨10, 5, 8⟩).1 = true := by decide
  ⟨h, ((FtSeg_Merge_correct ⟨10, 0, 5⟩ ⟨10, 5, 8⟩).2.1 h).2.2.2⟩

/-! ## The loop of `ForEachFtSeg` -/

theorem ForEachFtSeg_loop_spec {σ : Type} (m_segments : List Nat) (toDo : FtSeg → σ → σ) :
    ∀ (n first : Nat) (t : ForEachTrace σ),
      OsrmFtSegMapping.ForEachFtSeg.loop m_segments toDo first (first + n) t
        = some
            { iterations := t.iterations + n
              reads := t.reads ++ List.range' first n
              calls := t.calls ++ validInRange m_segments first (first + n)
              state := (validInRange m_segments first (first + n)).foldl
                (fun st x => toDo x st) t.state } := by
  intro n
  induction n with
  | zero =>
    intro first t
    rw [OsrmFtSegMapping.ForEachFtSeg.loop]
    simp [validInRange, unpackedRange]
  | succ n ih =>
    intro first t
    rw [OsrmFtSegMapping.ForEachFtSeg.loop]
    have h1 : first ≠ first + (n + 1) := by omega
    have h2 : first < first + (n + 1) := by omega
    have h3 : first + (n + 1) = first + 1 + n := by omega
    rw [if_pos h1, if_pos h2]
    simp only
    rw [h3, ih]
    have h4 : first + 1 + n - first = (first + 1 + n - (first + 1)) + 1 := by omega
    have hv : validInRange m_segments first (first + 1 + n)
        = (if (FtSeg.ofKey (m_segments.getD first 0)).IsValid
            then [FtSeg.ofKey (m_segments.getD first 0)] else [])
          ++ validInRange m_segments (first + 1) (first + 1 + n) := by
      simp only [validInRange, unpackedRange]
      rw [h4, List.range'_succ, List.map_cons, List.filter_cons]
      split <;> simp
    rw [hv]
    have h5 : first + 1 + n - (first + 1) = n := by omega
    by_cases hval : (FtSeg.ofKey (m_segments.getD first 0)).IsValid = true
    · simp only [hval, if_true]
      simp [List.range'_succ, Nat.add_assoc, Nat.add_comm 1 n]
    · simp only [hval, if_false]
      simp [List.range'_succ, Nat.add_assoc, Nat.add_comm 1 n]

theorem ForEachFtSeg_spec {σ : Type} (m : OsrmFtSegMapping) (nodeId s e : Nat)
    (toDo : FtSeg → σ → σ) (init : σ)
    (hr : m.GetSegmentsRange nodeId = (s, e)) (hse : s ≤ e) :
    m.ForEachFtSeg nodeId toDo init
      = some
          { iterations := e - s
            reads := List.range' s (e - s)
            calls := validInRange m.m_segments s e
            state := (validInRange m.m_segments s e).foldl (fun st x => toDo x st) init } := by
  unfold OsrmFtSegMapping.ForEachFtSeg
  simp only [hr]
  have h := ForEachFtSeg_loop_spec m.m_segments toDo (e - s) s ⟨0, [], [], init⟩
  have h2 : s + (e - s) = e := by omega
  rw [h2] at h
  rw [h]
  simp

theorem map_getD_range_eq_take_drop {α : Type} (l : List α) (d : α) (s e : Nat)
    (he : e ≤ l.length) :
    (List.range' s (e - s)).map (fun i => l.getD i d) = (l.drop s).take (e - s) := by
  apply List.ext_getElem
  · simp
    omega
  · intro i h1 h2
    simp at h1 h2
    simp [List.getD_eq_getElem?_getD]
    rw [List.getElem?_eq_getElem (by omega)]
    simp

theorem validInRange_eq_take_drop (m_segments : List Nat) (s e : Nat)
    (he : e ≤ m_segments.length) :
    validInRange m_segments s e
      = (((m_segments.drop s).take (e - s)).map FtSeg.ofKey).filter FtSeg.IsValid := by
  unfold validInRange unpackedRange
  rw [← map_getD_range_eq_take_drop m_segments 0 s e he, List.map_map]
  rfl

theorem sentinelMapping_range : sentinelMapping.GetSegmentsRange 5 = (0, 1) := by
  simp [OsrmFtSegMapping.GetSegmentsRange, OsrmFtSegMapping.lowerBound, sentinelMapping,
    SegOffset.init]

theorem scenarioMapping_range_2 : scenarioMapping.GetSegmentsRange 2 = (1, 2) := by
  simp [OsrmFtSegMapping.GetSegmentsRange, OsrmFtSegMapping.lowerBound, scenarioMapping,
    SegOffset.init]

/-! ## Claims about `ForEachFtSeg` -/

/-- Claim C1: with `(s, e) = GetSegmentsRange(nodeId)` and `s ≤ e ≤ GetSegmentsCount()`,
`ForEachFtSeg(nodeId, toDo)` invokes `toDo` on exactly the unpacked segments
`FtSeg(m_segments[i])`, `i = s, ..., e-1`, that are valid, once each and in
increasing index order, and on nothing else; if every entry of the range is a
sentinel (`m_fid = INVALID_FID`), `toDo` is invoked zero times. -/
theorem ForEachFtSeg_visits_valid_in_order {σ : Type} (m : OsrmFtSegMapping)
    (nodeId s e : Nat) (toDo : FtSeg → σ → σ) (init : σ)
    (hr : m.GetSegmentsRange nodeId = (s, e)) (hse : s ≤ e)
    (hec : e ≤ m.GetSegmentsCount) :
    ∃ t : ForEachTrace σ, m.ForEachFtSeg nodeId toDo init = some t
      ∧ t.calls
          = ((List.range' s (e - s)).map
              (fun i => FtSeg.ofKey (m.m_segments.getD i 0))).filter FtSeg.IsValid
      ∧ t.calls
          = (((m.m_segments.drop s).take (e - s)).map FtSeg.ofKey).filter FtSeg.IsValid
      ∧ t.state = t.calls.foldl (fun st x => toDo x st) init
      ∧ ((∀ i : Nat, s ≤ i → i < e →
            (FtSeg.ofKey (m.m_segments.getD i 0)).m_fid = FtSeg.INVALID_FID) →
          t.calls = [] ∧ t.state = init) := by
  refine ⟨_, ForEachFtSeg_spec m nodeId s e toDo init hr hse, rfl, ?_, rfl, ?_⟩
  · exact validInRange_eq_take_drop m.m_segments s e hec
  · intro hall
    have hnil : validInRange m.m_segments s e = [] := by
      unfold validInRange unpackedRange
      rw [List.filter_eq_nil_iff]
      intro x hx
      rw [List.mem_map] at hx
      obtain ⟨i, hi, rfl⟩ := hx
      rw [List.mem_range'_1] at hi
      have hfid := hall i hi.1 (by omega)
      simp only [FtSeg.IsValid, hfid, bne_self_eq_false, Bool.false_eq_true, not_false_eq_true]
    rw [hnil]
    exact ⟨rfl, rfl⟩

/-- Instance of claim C1 at scenario C: node 5 with one sentinel segment, a visitor that
counts its calls. -/
theorem ForEachFtSeg_visits_valid_in_order_witness :
    ∃ t : ForEachTrace Nat,
      sentinelMapping.ForEachFtSeg 5 (fun _ n => n + 1) 0 = some t
      ∧ t.calls
          = ((List.range' 0 (1 - 0)).map
              (fun i => FtSeg.ofKey (sentinelMapping.m_segments.getD i 0))).filter
                FtSeg.IsValid
      ∧ t.calls
          = (((sentinelMapping.m_segments.drop 0).take (1 - 0)).map FtSeg.ofKey).filter
              FtSeg.IsValid
      ∧ t.state = t.calls.foldl (fun st x => (fun _ n => n + 1) x st) 0
      ∧ ((∀ i : Nat, 0 ≤ i → i < 1 →
            (FtSeg.ofKey (sentinelMapping.m_segments.getD i 0)).m_fid = FtSeg.INVALID_FID) →
          t.calls = [] ∧ t.state = 0) :=
  ForEachFtSeg_visits_valid_in_order sentinelMapping 5 0 1 (fun _ n => n + 1) 0
    sentinelMapping_range (by decide) (by decide)

/-- Claim C10: for a range `(s, e)` of `GetSegmentsRange` with `s ≤ e`, the loop of
`ForEachFtSeg` ends after exactly `e - s` iterations, reads `m_segments` exactly at
the indices `s ≤ i < e`, each once, and calls `toDo` at most `e - s` times; if also
`e ≤ GetSegmentsCount()`, no read is past the end of the segment sequence. -/
theorem ForEachFtSeg_terminates_in_range {σ : Type} (m : OsrmFtSegMapping)
    (nodeId s e : Nat) (toDo : FtSeg → σ → σ) (init : σ)
    (hr : m.GetSegmentsRange nodeId = (s, e)) (hse : s ≤ e) :
    ∃ t : ForEachTrace σ, m.ForEachFtSeg nodeId toDo init = some t
      ∧ t.iterations = e - s
      ∧ t.reads = List.range' s (e - s)
      ∧ (∀ i : Nat, i ∈ t.reads ↔ s ≤ i ∧ i < e)
      ∧ t.reads.Nodup
      ∧ t.reads.length = e - s
      ∧ t.calls.length ≤ e - s
      ∧ (e ≤ m.GetSegmentsCount → ∀ i ∈ t.reads, i < m.GetSegmentsCount) := by
  refine ⟨_, ForEachFtSeg_spec m nodeId s e toDo init hr hse, rfl, rfl, ?_, ?_, ?_, ?_, ?_⟩
  · intro i
    simp only [List.mem_range'_1]
    omega
  · exact List.nodup_range' s (e - s)
  · simp
  · simp only [validInRange, unpackedRange]
    calc ((List.map (fun i => FtSeg.ofKey (m.m_segments.getD i 0))
              (List.range' s (e - s))).filter FtSeg.IsValid).length
        ≤ (List.map (fun i => FtSeg.ofKey (m.m_segments.getD i 0))
              (List.range' s (e - s))).length := List.length_filter_le _ _
      _ = e - s := by simp
  · intro hec i hi
    simp only [List.mem_range'_1] at hi
    omega

/-- Instance of claim C10 at node 2 of the scenario mapping, whose range is `(1, 2)`. -/
theorem ForEachFtSeg_terminates_in_range_witness :
    ∃ t : ForEachTrace Nat,
      scenarioMapping.ForEachFtSeg 2 (fun _ n => n + 1) 0 = some t
      ∧ t.iterations = 2 - 1
      ∧ t.reads = List.range' 1 (2 - 1)
      ∧ (∀ i : Nat, i ∈ t.reads ↔ 1 ≤ i ∧ i < 2)
      ∧ t.reads.Nodup
      ∧ t.reads.length = 2 - 1
      ∧ t.calls.length ≤ 2 - 1
      ∧ (2 ≤ scenarioMapping.GetSegmentsCount →
          ∀ i ∈ t.reads, i < scenarioMapping.GetSegmentsCount) :=
  ForEachFtSeg_terminates_in_range scenarioMapping 2 1 2 (fun _ n => n + 1) 0
    scenarioMapping_range_2 (by decide)

/-! ## The binary search of `GetSegmentsRange` -/

theorem lowerBound_spec (offs : List SegOffset) (q : Nat)
    (hmono : ∀ i j : Nat, i ≤ j → j < offs.length →
      (offs.getD i SegOffset.init).m_nodeId ≤ (offs.getD j SegOffset.init).m_nodeId)
    (first last : Nat) (hfl : first ≤ last) (hlast : last ≤ offs.length)
    (hlo : ∀ i : Nat, i < first → (offs.getD i SegOffset.init).m_nodeId < q)
    (hhi : ∀ i : Nat, last ≤ i → i < offs.length →
      q ≤ (offs.getD i SegOffset.init).m_nodeId) :
    first ≤ OsrmFtSegMapping.lowerBound offs q first last
      ∧ OsrmFtSegMapping.lowerBound offs q first last ≤ last
      ∧ (∀ i : Nat, i < OsrmFtSegMapping.lowerBound offs q first last →
          (offs.getD i SegOffset.init).m_nodeId < q)
      ∧ (∀ i : Nat, OsrmFtSegMapping.lowerBound offs q first last ≤ i → i < offs.length →
          q ≤ (offs.getD i SegOffset.init).m_nodeId) := by
  induction' hd : last - first using Nat.strong_induction_on with d ih generalizing first last
  rw [OsrmFtSegMapping.lowerBound]
  by_cases hlt : first < last
  · rw [if_pos hlt]
    simp only
    have hmid1 : first ≤ first + (last - first) / 2 := by omega
    have hmid2 : first + (last - first) / 2 < last := by omega
    by_cases hcmp : (offs.getD (first + (last - first) / 2) SegOffset.init).m_nodeId < q
    · rw [if_pos hcmp]
      have hrec := ih (last - (first + (last - first) / 2 + 1)) (by omega)
        (first + (last - first) / 2 + 1) last (by omega) hlast
        (by
          intro i hi
          have := hmono i (first + (last - first) / 2) (by omega) (by omega)
          omega)
        hhi rfl
      obtain ⟨h1, h2, h3, h4⟩ := hrec
      exact ⟨by omega, h2, h3, h4⟩
    · rw [if_neg hcmp]
      have hrec := ih (first + (last - first) / 2 - first) (by omega)
        first (first + (last - first) / 2) hmid1 (by omega) hlo
        (by
          intro i hi hil
          have := hmono (first + (last - first) / 2) i hi hil
          omega)
        rfl
      obtain ⟨h1, h2, h3, h4⟩ := hrec
      exact ⟨h1, by omega, h3, h4⟩
  · rw [if_neg hlt]
    have : first = last := by omega
    subst this
    exact ⟨le_refl _, le_refl _, hlo, hhi⟩

theorem rangeIn_at (len q : Nat) :
    ∀ (offs : List SegOffset) (k : Nat), k ≤ offs.length →
      (∀ i : Nat, i < k → (offs.getD i SegOffset.init).m_nodeId < q) →
      (∀ i : Nat, k ≤ i → i < offs.length → q ≤ (offs.getD i SegOffset.init).m_nodeId) →
      rangeIn offs len q
        = (match offs[k]? with
          | some o =>
            if o.m_nodeId = q then
              match offs[k + 1]? with
              | some next => (o.m_offset, next.m_offset)
              | none => (o.m_offset, len)
            else (o.m_offset, o.m_offset)
          | none => (len, len)) := by
  intro offs
  induction offs with
  | nil =>
    intro k _ _ _
    simp [rangeIn]
  | cons o rest ih =>
    intro k hk hlo hhi
    cases k with
    | zero =>
      have h0 := hhi 0 (le_refl _) (by simp)
      simp only [List.getD_cons_zero] at h0
      have hnlt : ¬ o.m_nodeId < q := by omega
      simp only [rangeIn, if_neg hnlt, List.getElem?_cons_zero, zero_add]
      by_cases heq : o.m_nodeId = q
      · simp only [if_pos heq]
        cases rest with
        | nil => simp
        | cons n r => simp
      · simp only [if_neg heq]
    | succ k =>
      have h0 := hlo 0 (by omega)
      simp only [List.getD_cons_zero] at h0
      simp only [rangeIn, if_pos h0, List.getElem?_cons_succ]
      apply ih k (by simpa using hk)
      · intro i hi
        have := hlo (i + 1) (by omega)
        simpa using this
      · intro i hi hil
        have := hhi (i + 1) (by omega) (by simpa using hil)
        simpa using this

theorem OffsetLt_trans {a b c : SegOffset} (h1 : OffsetLt a b) (h2 : OffsetLt b c) :
    OffsetLt a c :=
  ⟨Nat.lt_trans h1.1 h2.1, Nat.lt_trans h1.2 h2.2⟩

theorem strictlyIncreasing_iff_pairwise :
    ∀ l : List SegOffset,
      OsrmFtSegMapping.strictlyIncreasing l = true ↔ l.Pairwise OffsetLt
  | [] => by simp [OsrmFtSegMapping.strictlyIncreasing]
  | [_] => by simp [OsrmFtSegMapping.strictlyIncreasing]
  | a :: b :: rest => by
    have ih := strictlyIncreasing_iff_pairwise (b :: rest)
    simp only [OsrmFtSegMapping.strictlyIncreasing, Bool.and_eq_true, decide_eq_true_eq, ih]
    constructor
    · rintro ⟨⟨h1, h2⟩, h3⟩
      refine List.pairwise_cons.mpr ⟨?_, h3⟩
      intro x hx
      rcases List.mem_cons.mp hx with rfl | hx
      · exact ⟨h1, h2⟩
      · exact OffsetLt_trans ⟨h1, h2⟩ ((List.pairwise_cons.mp h3).1 x hx)
    · intro h
      have h1 := List.pairwise_cons.mp h
      have h2 := h1.1 b (List.mem_cons_self _ _)
      exact ⟨⟨h2.1, h2.2⟩, h1.2⟩

theorem pairwise_nodeId_mono (offs : List SegOffset) (hp : offs.Pairwise OffsetLt)
    (i j : Nat) (hij : i ≤ j) (hj : j < offs.length) :
    (offs.getD i SegOffset.init).m_nodeId ≤ (offs.getD j SegOffset.init).m_nodeId := by
  rw [List.getD_eq_getElem _ _ hj, List.getD_eq_getElem _ _ (by omega : i < offs.length)]
  rcases Nat.eq_or_lt_of_le hij with h | h
  · subst h
    exact le_refl _
  · exact Nat.le_of_lt ((List.pairwise_iff_getElem.mp hp) i j (by omega) hj h).1

theorem GetSegmentsRange_eq_rangeIn (m : OsrmFtSegMapping)
    (hp : m.m_offsets.Pairwise OffsetLt) (q : Nat) :
    m.GetSegmentsRange q = rangeIn m.m_offsets m.m_segments.length q := by
  have hlb := lowerBound_spec m.m_offsets q (pairwise_nodeId_mono m.m_offsets hp)
    0 m.m_offsets.length (Nat.zero_le _) (le_refl _)
    (by intro i hi; omega) (by intro i hi hil; omega)
  obtain ⟨_, h2, h3, h4⟩ := hlb
  rw [rangeIn_at m.m_segments.length q m.m_offsets _ h2 h3 h4]
  rfl

theorem rangeIn_bounds (len q : Nat) :
    ∀ offs : List SegOffset, offs.Pairwise OffsetLt → (∀ o ∈ offs, o.m_offset ≤ len) →
      (rangeIn offs len q).1 ≤ (rangeIn offs len q).2 ∧ (rangeIn offs len q).2 ≤ len
  | [], _, _ => by simp [rangeIn]
  | o :: rest, hp, hle => by
    have hp1 := List.pairwise_cons.mp hp
    have ih := rangeIn_bounds len q rest hp1.2 (fun x hx => hle x (List.mem_cons_of_mem _ hx))
    have ho := hle o (List.mem_cons_self _ _)
    simp only [rangeIn]
    by_cases h1 : o.m_nodeId < q
    · simp only [if_pos h1]
      exact ih
    · simp only [if_neg h1]
      by_cases h2 : o.m_nodeId = q
      · simp only [if_pos h2]
        cases rest with
        | nil => exact ⟨ho, le_refl _⟩
        | cons y ys =>
          have hy := (hp1.1 y (List.mem_cons_self _ _)).2
          have hyl := hle y (List.mem_cons_of_mem _ (List.mem_cons_self _ _))
          exact ⟨Nat.le_of_lt hy, hyl⟩
      · simp only [if_neg h2]
        exact ⟨le_refl _, ho⟩

theorem grow_getD {α : Type} (v : List α) (i j : Nat) (fill : α) :
    (OsrmFtSegBackwardIndex.grow v i fill).getD j fill = v.getD j fill := by
  unfold OsrmFtSegBackwardIndex.grow
  simp only [List.getD_eq_getElem?_getD]
  by_cases hj : j < v.length
  · rw [List.getElem?_append_left hj]
  · rw [List.getElem?_append_right (by omega), List.getElem?_replicate,
      List.getElem?_eq_none (by omega)]
    split <;> rfl

theorem grow_length {α : Type} (v : List α) (i : Nat) (fill : α) :
    (OsrmFtSegBackwardIndex.grow v i fill).length = max v.length (i + 1) := by
  unfold OsrmFtSegBackwardIndex.grow
  simp only [List.length_append, List.length_replicate]
  omega

theorem set_grow_getD {α : Type} (v : List α) (i j : Nat) (fill x : α) :
    ((OsrmFtSegBackwardIndex.grow v i fill).set i x).getD j fill
      = if j = i then x else v.getD j fill := by
  have hlen := grow_length v i fill
  by_cases hji : j = i
  · subst hji
    rw [if_pos rfl, List.getD_eq_getElem?_getD, List.getElem?_set]
    simp only [if_true]
    rw [if_pos (by omega)]
    rfl
  · rw [if_neg hji, List.getD_eq_getElem?_getD, List.getElem?_set,
      if_neg (fun h => hji h.symm), ← List.getD_eq_getElem?_getD, grow_getD]

theorem visit_bits (n : Nat) (s : FtSeg) (acc : OsrmFtSegBackwardIndex.Scan) (f : Nat) :
    (OsrmFtSegBackwardIndex.visit n s acc).bits.getD f false
      = if f = s.m_fid then true else acc.bits.getD f false := by
  unfold OsrmFtSegBackwardIndex.visit
  exact set_grow_getD acc.bits s.m_fid f false true

theorem visit_lists (n : Nat) (s : FtSeg) (acc : OsrmFtSegBackwardIndex.Scan) (f : Nat) :
    (OsrmFtSegBackwardIndex.visit n s acc).lists.getD f []
      = if f = s.m_fid then
          (if n ∈ acc.lists.getD f [] then acc.lists.getD f []
           else acc.lists.getD f [] ++ [n])
        else acc.lists.getD f [] := by
  unfold OsrmFtSegBackwardIndex.visit
  simp only
  rw [set_grow_getD acc.lists s.m_fid f [], grow_getD]
  by_cases hf : f = s.m_fid
  · subst hf
    rfl
  · rw [if_neg hf, if_neg hf]

theorem visit_length (n : Nat) (s : FtSeg) (acc : OsrmFtSegBackwardIndex.Scan)
    (h : acc.bits.length = acc.lists.length) :
    (OsrmFtSegBackwardIndex.visit n s acc).bits.length
      = (OsrmFtSegBackwardIndex.visit n s acc).lists.length := by
  unfold OsrmFtSegBackwardIndex.visit
  simp only [List.length_set, grow_length, h]

theorem ScanInv_visit (acc : OsrmFtSegBackwardIndex.Scan) (seen : List (Nat × FtSeg))
    (n : Nat) (s : FtSeg) (h : ScanInv acc seen) :
    ScanInv (OsrmFtSegBackwardIndex.visit n s acc) (seen ++ [(n, s)]) := by
  obtain ⟨hlen, hbits, hlists, hnodup⟩ := h
  refine ⟨visit_length n s acc hlen, ?_, ?_, ?_⟩
  · intro f
    rw [visit_bits]
    by_cases hf : f = s.m_fid
    · rw [if_pos hf]
      simp only [true_iff]
      exact ⟨(n, s), by simp, hf.symm⟩
    · rw [if_neg hf, hbits f]
      constructor
      · rintro ⟨e, he, hef⟩
        exact ⟨e, List.mem_append_left _ he, hef⟩
      · rintro ⟨e, he, hef⟩
        rcases List.mem_append.mp he with h1 | h1
        · exact ⟨e, h1, hef⟩
        · have : e = (n, s) := by simpa using h1
          subst this
          exact absurd hef.symm hf
  · intro f k
    rw [visit_lists]
    by_cases hf : f = s.m_fid
    · rw [if_pos hf]
      have key : k ∈ (if n ∈ acc.lists.getD f [] then acc.lists.getD f []
          else acc.lists.getD f [] ++ [n]) ↔ (k ∈ acc.lists.getD f [] ∨ k = n) := by
        by_cases hn : n ∈ acc.lists.getD f []
        · rw [if_pos hn]
          constructor
          · exact Or.inl
          · rintro (h1 | h1)
            · exact h1
            · rw [h1]
              exact hn
        · rw [if_neg hn]
          simp
      rw [key, hlists f k]
      constructor
      · rintro (⟨e, he, h1, h2⟩ | h1)
        · exact ⟨e, List.mem_append_left _ he, h1, h2⟩
        · exact ⟨(n, s), by simp, h1.symm, hf.symm⟩
      · rintro ⟨e, he, h1, h2⟩
        rcases List.mem_append.mp he with h3 | h3
        · exact Or.inl ⟨e, h3, h1, h2⟩
        · have : e = (n, s) := by simpa using h3
          subst this
          exact Or.inr h1.symm
    · rw [if_neg hf, hlists f k]
      constructor
      · rintro ⟨e, he, h1, h2⟩
        exact ⟨e, List.mem_append_left _ he, h1, h2⟩
      · rintro ⟨e, he, h1, h2⟩
        rcases List.mem_append.mp he with h3 | h3
        · exact ⟨e, h3, h1, h2⟩
        · have : e = (n, s) := by simpa using h3
          subst this
          exact absurd h2.symm hf
  · intro f
    rw [visit_lists]
    by_cases hf : f = s.m_fid
    · rw [if_pos hf]
      by_cases hn : n ∈ acc.lists.getD f []
      · rw [if_pos hn]
        exact hnodup f
      · rw [if_neg hn]
        exact List.Nodup.append (hnodup f) (List.nodup_singleton n)
          (by simpa using hn)
    · rw [if_neg hf]
      exact hnodup f

theorem ScanInv_visitAll :
    ∀ (events : List (Nat × FtSeg)) (acc : OsrmFtSegBackwardIndex.Scan)
      (seen : List (Nat × FtSeg)),
      ScanInv acc seen → ScanInv (visitAll acc events) (seen ++ events)
  | [], acc, seen, h => by
    simpa [visitAll] using h
  | e :: rest, acc, seen, h => by
    have h1 := ScanInv_visit acc seen e.1 e.2 h
    have h2 := ScanInv_visitAll rest _ _ h1
    simpa [visitAll] using h2

theorem ScanInv_init : ScanInv ⟨[], []⟩ [] := by
  simp [ScanInv]

theorem ForEachFtSeg_loop_some_le {σ : Type} (m_segments : List Nat)
    (toDo : FtSeg → σ → σ) (first second : Nat) (t t1 : ForEachTrace σ)
    (h : OsrmFtSegMapping.ForEachFtSeg.loop m_segments toDo first second t = some t1) :
    first ≤ second := by
  by_contra hgt
  rw [OsrmFtSegMapping.ForEachFtSeg.loop, if_pos (by omega), if_neg (by omega)] at h
  exact Option.noConfusion h

theorem ForEachFtSeg_none_of_gt {σ : Type} (m : OsrmFtSegMapping) (nodeId : Nat)
    (toDo : FtSeg → σ → σ) (init : σ)
    (h : (m.GetSegmentsRange nodeId).2 < (m.GetSegmentsRange nodeId).1) :
    m.ForEachFtSeg nodeId toDo init = none := by
  unfold OsrmFtSegMapping.ForEachFtSeg
  simp only
  rw [OsrmFtSegMapping.ForEachFtSeg.loop, if_pos (by omega), if_neg (by omega)]

theorem ForEachFtSeg_some_le {σ : Type} (m : OsrmFtSegMapping) (nodeId : Nat)
    (toDo : FtSeg → σ → σ) (init : σ) (t : ForEachTrace σ)
    (h : m.ForEachFtSeg nodeId toDo init = some t) :
    (m.GetSegmentsRange nodeId).1 ≤ (m.GetSegmentsRange nodeId).2 :=
  ForEachFtSeg_loop_some_le m.m_segments toDo _ _ _ t h

theorem scan_spec (m : OsrmFtSegMapping) :
    ∀ (count nodeId : Nat) (acc acc1 : OsrmFtSegBackwardIndex.Scan),
      OsrmFtSegBackwardIndex.scan m count nodeId acc = some acc1 →
      acc1 = visitAll acc (scanEvents m count nodeId)
  | 0, _, acc, acc1, h => by
    simp only [OsrmFtSegBackwardIndex.scan, Option.some.injEq] at h
    simp [scanEvents, visitAll, h]
  | count + 1, nodeId, acc, acc1, h => by
    simp only [OsrmFtSegBackwardIndex.scan] at h
    cases hfe : m.ForEachFtSeg nodeId (OsrmFtSegBackwardIndex.visit nodeId) acc with
    | none =>
      rw [hfe] at h
      exact Option.noConfusion h
    | some t =>
      rw [hfe] at h
      simp only at h
      have hle := ForEachFtSeg_some_le m nodeId _ acc t hfe
      have hspec := ForEachFtSeg_spec m nodeId (m.GetSegmentsRange nodeId).1
        (m.GetSegmentsRange nodeId).2 (OsrmFtSegBackwardIndex.visit nodeId) acc rfl hle
      rw [hfe, Option.some.injEq] at hspec
      have hrec := scan_spec m count (nodeId + 1) t.state acc1 h
      rw [hrec, hspec]
      simp only [scanEvents, visitAll, List.foldl_append, List.foldl_map]

theorem scan_total (m : OsrmFtSegMapping)
    (hr : ∀ n : Nat, (m.GetSegmentsRange n).1 ≤ (m.GetSegmentsRange n).2) :
    ∀ (count nodeId : Nat) (acc : OsrmFtSegBackwardIndex.Scan),
      ∃ acc1, OsrmFtSegBackwardIndex.scan m count nodeId acc = some acc1
  | 0, _, acc => ⟨acc, rfl⟩
  | count + 1, nodeId, acc => by
    have hspec := ForEachFtSeg_spec m nodeId (m.GetSegmentsRange nodeId).1
      (m.GetSegmentsRange nodeId).2 (OsrmFtSegBackwardIndex.visit nodeId) acc rfl (hr nodeId)
    simp only [OsrmFtSegBackwardIndex.scan, hspec]
    exact scan_total m hr count (nodeId + 1) _

theorem mem_validInRange (m_segments : List Nat) (s e : Nat) (x : FtSeg) :
    x ∈ validInRange m_segments s e ↔
      ∃ i : Nat, s ≤ i ∧ i < e ∧ FtSeg.ofKey (m_segments.getD i 0) = x
        ∧ x.IsValid = true := by
  unfold validInRange unpackedRange
  rw [List.mem_filter, List.mem_map]
  constructor
  · rintro ⟨⟨i, hi, hx⟩, hv⟩
    rw [List.mem_range'_1] at hi
    exact ⟨i, hi.1, by omega, hx, hv⟩
  · rintro ⟨i, h1, h2, hx, hv⟩
    exact ⟨⟨i, List.mem_range'_1.mpr ⟨h1, by omega⟩, hx⟩, hv⟩

theorem mem_scanEvents (m : OsrmFtSegMapping) :
    ∀ (count nodeId : Nat) (e : Nat × FtSeg),
      e ∈ scanEvents m count nodeId ↔
        nodeId ≤ e.1 ∧ e.1 < nodeId + count
          ∧ e.2 ∈ validInRange m.m_segments (m.GetSegmentsRange e.1).1
              (m.GetSegmentsRange e.1).2
  | 0, nodeId, e => by
    simp only [scanEvents, List.not_mem_nil, false_iff]
    omega
  | count + 1, nodeId, e => by
    have ih := mem_scanEvents m count (nodeId + 1) e
    simp only [scanEvents, List.mem_append, List.mem_map, ih]
    constructor
    · rintro (⟨x, hx, rfl⟩ | ⟨h1, h2, h3⟩)
      · exact ⟨le_refl _, by omega, hx⟩
      · exact ⟨by omega, by omega, h3⟩
    · rintro ⟨h1, h2, h3⟩
      by_cases heq : e.1 = nodeId
      · left
        refine ⟨e.2, ?_, ?_⟩
        · rw [← heq]
          exact h3
        · rw [← heq]
      · right
        exact ⟨by omega, by omega, h3⟩

theorem scanEvents_hasValidSegment (m : OsrmFtSegMapping) (maxNodeId n f : Nat) :
    (∃ e ∈ scanEvents m (maxNodeId + 1) 0, e.1 = n ∧ e.2.m_fid = f) ↔
      n ≤ maxNodeId ∧ hasValidSegment m n f := by
  unfold hasValidSegment
  constructor
  · rintro ⟨e, he, h1, h2⟩
    rw [mem_scanEvents, mem_validInRange] at he
    obtain ⟨_, h3, i, h4, h5, h6, h7⟩ := he
    rw [h1] at h3 h4 h5
    refine ⟨by omega, i, h4, h5, ?_, ?_⟩
    · rw [h6]
      exact h7
    · rw [h6]
      exact h2
  · rintro ⟨h1, i, h2, h3, h4, h5⟩
    refine ⟨(n, FtSeg.ofKey (m.m_segments.getD i 0)), ?_, rfl, h5⟩
    rw [mem_scanEvents, mem_validInRange]
    exact ⟨Nat.zero_le _, by simp only; omega, i, h2, h3, rfl, h4⟩

theorem dense_rank :
    ∀ (bits : List Bool) (lists : List TNodesList) (f : Nat),
      bits.length = lists.length → bits.getD f false = true →
      (OsrmFtSegBackwardIndex.dense bits lists).getD
          (OsrmFtSegBackwardIndex.rank bits f - 1) []
        = lists.getD f [] ∧ 1 ≤ OsrmFtSegBackwardIndex.rank bits f
  | [], _, f, _, hb => by simp at hb
  | b :: bits, [], f, hlen, _ => by simp at hlen
  | b :: bits, l :: lists, 0, _, hb => by
    simp only [List.getD_cons_zero] at hb
    subst hb
    simp [OsrmFtSegBackwardIndex.dense, OsrmFtSegBackwardIndex.rank]
  | b :: bits, l :: lists, f + 1, hlen, hb => by
    simp only [List.getD_cons_succ] at hb
    have ih := dense_rank bits lists f (by simpa using hlen) hb
    have hrank : OsrmFtSegBackwardIndex.rank (b :: bits) (f + 1)
        = (if b = true then 1 else 0) + OsrmFtSegBackwardIndex.rank bits f := by
      unfold OsrmFtSegBackwardIndex.rank
      rw [List.take_succ_cons, List.count_cons]
      cases b
      · simp
      · simp
        omega
    rw [hrank]
    cases b with
    | false =>
      simp only [OsrmFtSegBackwardIndex.dense, Bool.false_eq_true, if_false, zero_add,
        List.getD_cons_succ]
      exact ih
    | true =>
      simp only [OsrmFtSegBackwardIndex.dense, if_true, List.getD_cons_succ]
      refine ⟨?_, by omega⟩
      have h1 : 1 + OsrmFtSegBackwardIndex.rank bits f - 1
          = (OsrmFtSegBackwardIndex.rank bits f - 1) + 1 := by omega
      rw [h1, List.getD_cons_succ]
      exact ih.1

theorem Load_ok_ranges (cont : FilesContainer) (m : OsrmFtSegMapping)
    (h : OsrmFtSegMapping.Load cont = .ok m) (n : Nat) :
    (m.GetSegmentsRange n).1 ≤ (m.GetSegmentsRange n).2
      ∧ (m.GetSegmentsRange n).2 ≤ m.GetSegmentsCount := by
  unfold OsrmFtSegMapping.Load at h
  split at h
  · rename_i hv
    simp only [Except.ok.injEq] at h
    subst h
    have hp := (strictlyIncreasing_iff_pairwise _).mp hv.1
    rw [GetSegmentsRange_eq_rangeIn _ hp n]
    exact rangeIn_bounds _ n _ hp hv.2
  · exact Except.noConfusion h

theorem GetNodeIdByFid_eq_lists (acc : OsrmFtSegBackwardIndex.Scan)
    (seen : List (Nat × FtSeg)) (hinv : ScanInv acc seen) (f : Nat) :
    (OsrmFtSegBackwardIndex.mk acc.bits
        (OsrmFtSegBackwardIndex.dense acc.bits acc.lists)).GetNodeIdByFid f
      = acc.lists.getD f [] := by
  obtain ⟨hlen, hbits, hlists, _⟩ := hinv
  unfold OsrmFtSegBackwardIndex.GetNodeIdByFid
  simp only
  by_cases hb : acc.bits.getD f false = true
  · rw [if_pos hb]
    exact (dense_rank acc.bits acc.lists f hlen hb).1
  · rw [if_neg hb]
    symm
    rw [List.eq_nil_iff_forall_not_mem]
    intro n hn
    obtain ⟨e, he, _, hef⟩ := (hlists f n).mp hn
    exact hb ((hbits f).mpr ⟨e, he, hef⟩)

theorem scenario_Load :
    ∃ b : OsrmFtSegMappingBuilder,
      OsrmFtSegMappingBuilder.ctor.AppendAll scenarioAppends = some b
        ∧ OsrmFtSegMapping.Load b.Save = .ok scenarioMapping :=
  ⟨⟨[⟨1, 0⟩, ⟨2, 1⟩], [42949672965, 42950000648], 2⟩, by decide, by rfl⟩

theorem scenarioMapping_range_0 : scenarioMapping.GetSegmentsRange 0 = (0, 0) := by
  simp [OsrmFtSegMapping.GetSegmentsRange, OsrmFtSegMapping.lowerBound, scenarioMapping,
    SegOffset.init]

theorem scenarioMapping_range_1 : scenarioMapping.GetSegmentsRange 1 = (0, 1) := by
  simp [OsrmFtSegMapping.GetSegmentsRange, OsrmFtSegMapping.lowerBound, scenarioMapping,
    SegOffset.init]

theorem scenario_Construct :
    OsrmFtSegBackwardIndex.Construct scenarioMapping 2
      = some ⟨[false, false, false, false, false, false, false, false, false, false, true],
          [[1, 2]]⟩ := by
  simp only [OsrmFtSegBackwardIndex.Construct, OsrmFtSegBackwardIndex.scan,
    ForEachFtSeg_spec scenarioMapping 0 0 0 _ _ scenarioMapping_range_0 (le_refl _),
    ForEachFtSeg_spec scenarioMapping 1 0 1 _ _ scenarioMapping_range_1 (by decide),
    ForEachFtSeg_spec scenarioMapping 2 1 2 _ _ scenarioMapping_range_2 (by decide)]
  decide

/-! ## Claim about the backward index -/

/-- Claim C3: for a backward index built by `Construct` from a forward mapping and
`maxNodeId`, `GetNodeIdByFid(f)` is non-empty exactly when `f` is the feature id of a
valid segment in the forward range of some node id in `0..maxNodeId`; the list holds
exactly the node ids whose forward range has a valid segment of feature `f`, each
once. `Construct` succeeds on every loaded mapping. With node 1 -> (10,0,5) and
node 2 -> (10,5,8): `GetNodeIdByFid(10) = [1, 2]` and `GetNodeIdByFid(999)` is empty. -/
theorem backward_index_consistency (m : OsrmFtSegMapping) (maxNodeId : Nat) :
    (∀ cont : FilesContainer, OsrmFtSegMapping.Load cont = .ok m →
        ∃ idx, OsrmFtSegBackwardIndex.Construct m maxNodeId = some idx)
      ∧ (∀ idx : OsrmFtSegBackwardIndex,
          OsrmFtSegBackwardIndex.Construct m maxNodeId = some idx →
          ∀ f : Nat,
            (idx.GetNodeIdByFid f ≠ [] ↔ ∃ n : Nat, n ≤ maxNodeId ∧ hasValidSegment m n f)
              ∧ (∀ n : Nat,
                  n ∈ idx.GetNodeIdByFid f ↔ n ≤ maxNodeId ∧ hasValidSegment m n f)
              ∧ (idx.GetNodeIdByFid f).Nodup)
      ∧ (∃ (b : OsrmFtSegMappingBuilder) (idx : OsrmFtSegBackwardIndex),
          OsrmFtSegMappingBuilder.ctor.AppendAll scenarioAppends = some b
            ∧ OsrmFtSegMapping.Load b.Save = .ok scenarioMapping
            ∧ OsrmFtSegBackwardIndex.Construct scenarioMapping 2 = some idx
            ∧ idx.GetNodeIdByFid 10 = [1, 2]
            ∧ idx.GetNodeIdByFid 999 = []) := by
  refine ⟨?_, ?_, ?_⟩
  · intro cont hload
    obtain ⟨acc, hacc⟩ := scan_total m (fun n => (Load_ok_ranges cont m hload n).1)
      (maxNodeId + 1) 0 ⟨[], []⟩
    exact ⟨⟨acc.bits, OsrmFtSegBackwardIndex.dense acc.bits acc.lists⟩, by
      simp only [OsrmFtSegBackwardIndex.Construct, hacc]⟩
  · intro idx hc f
    unfold OsrmFtSegBackwardIndex.Construct at hc
    cases hscan : OsrmFtSegBackwardIndex.scan m (maxNodeId + 1) 0 ⟨[], []⟩ with
    | none =>
      rw [hscan] at hc
      exact Option.noConfusion hc
    | some acc =>
      rw [hscan] at hc
      simp only [Option.some.injEq] at hc
      subst hc
      have hacc := scan_spec m (maxNodeId + 1) 0 _ acc hscan
      have hinv : ScanInv acc ([] ++ scanEvents m (maxNodeId + 1) 0) := by
        rw [hacc]
        exact ScanInv_visitAll _ _ _ ScanInv_init
      rw [List.nil_append] at hinv
      have hmem : ∀ n : Nat, n ∈ acc.lists.getD f [] ↔
          n ≤ maxNodeId ∧ hasValidSegment m n f := fun n => by
        rw [hinv.2.2.1 f n]
        exact scanEvents_hasValidSegment m maxNodeId n f
      rw [GetNodeIdByFid_eq_lists acc _ hinv f]
      refine ⟨?_, hmem, hinv.2.2.2 f⟩
      constructor
      · intro hne
        obtain ⟨n, hn⟩ := List.exists_mem_of_ne_nil _ hne
        exact ⟨n, (hmem n).mp hn⟩
      · rintro ⟨n, hn⟩
        exact List.ne_nil_of_mem ((hmem n).mpr hn)
  · obtain ⟨b, hb1, hb2⟩ := scenario_Load
    exact ⟨b, _, hb1, hb2, scenario_Construct, by decide, by decide⟩

/-- Instance of claim C3 at the scenario mapping: feature 10 has a valid segment at some
node up to 2, feature 999 has none. -/
theorem backward_index_consistency_witness :
    (∃ n : Nat, n ≤ 2 ∧ hasValidSegment scenarioMapping n 10)
      ∧ ¬ (∃ n : Nat, n ≤ 2 ∧ hasValidSegment scenarioMapping n 999) :=
  have h := (backward_index_consistency scenarioMapping 2).2.1 _ scenario_Construct
  ⟨(h 10).1.mp (by decide), fun hex => absurd ((h 999).1.mpr hex) (by decide)⟩

end routing
